import Mathlib

/-!
Verification of the DxilPreserveAllOutputs pass
(src/lib/HLSL/DxilPreserveAllOutputs.cpp) against its natural-language
specification.

The pass is embedded shallowly: a function body is a list of instructions,
LLVM integer values are width-tagged naturals, the DXIL module's two
signature tables are lists of signature elements, and each C++ method of
the pass becomes a Lean function of the same name.  The synthesized IR
(allocas, redirected scratch stores, materialized final output stores) is
represented by dedicated instruction constructors carrying exactly the
operands the IRBuilder calls in the source supply.
-/

/-- A machine integer value as LLVM sees it: a bit width and an unsigned
value.  Constants built by the pass keep the value reduced modulo the
width. -/
structure IntV where
  width : Nat
  val : Nat
deriving DecidableEq, Repr

/-- The i32 constant builder (IRBuilder::getInt32). -/
def i32 (n : Nat) : IntV := ⟨32, n % 2 ^ 32⟩

/-- The i8 constant builder (IRBuilder::getInt8). -/
def i8 (n : Nat) : IntV := ⟨8, n % 2 ^ 8⟩

/-- CreateTrunc: keep the low w bits. -/
def truncIV (v : IntV) (w : Nat) : IntV := ⟨w, v.val % 2 ^ w⟩

/-- CreateZExt: widen, preserving the unsigned value. -/
def zextIV (v : IntV) (w : Nat) : IntV := ⟨w, v.val⟩

/-- CreateMul: both operands must have the same width; the product wraps.
A width mismatch is invalid IR, modelled as none. -/
def mulIV (a b : IntV) : Option IntV :=
  if a.width = b.width then some ⟨a.width, a.val * b.val % 2 ^ a.width⟩ else none

/-- CreateAdd: both operands must have the same width; the sum wraps.
A width mismatch is invalid IR, modelled as none. -/
def addIV (a b : IntV) : Option IntV :=
  if a.width = b.width then some ⟨a.width, (a.val + b.val) % 2 ^ a.width⟩ else none

/-- A DxilSignatureElement as the pass reads it: GetID, GetRows, GetCols,
GetCompType (a scalar type tag), IsPatchConstant, GetName. -/
structure SigElement where
  id : Nat
  rows : Nat
  cols : Nat
  compType : Nat
  isPatchConstant : Bool
  name : String
deriving DecidableEq, Repr

/-- The DxilModule as the pass reads it: the regular output signature
table and the patch-constant signature table, each indexed by signature
id (GetElement). -/
structure DxilModule where
  outputSignature : List SigElement
  patchConstantSignature : List SigElement
deriving DecidableEq, Repr

/-- DXIL::OpCode values the pass emits. -/
inductive OpCode where
  | storeOutput
  | storePatchConstant
deriving DecidableEq, Repr

/-- The type given to CreateAlloca: a single scalar of the element's
component type, or an array of rows*cols such scalars. -/
inductive AllocaType where
  | scalar (elemTy : Nat)
  | array (elemTy : Nat) (size : Nat)
deriving DecidableEq, Repr

/-- An address into a scratch slot: the alloca itself (scalar case) or an
in-bounds GEP at a computed linear index (aggregate case). -/
inductive Addr where
  | direct (slot : Nat)
  | gep (slot : Nat) (index : IntV)
deriving DecidableEq, Repr

/-- The scratch slot an address points into. -/
def Addr.slotOf : Addr → Nat
  | .direct s => s
  | .gep s _ => s

/-- Instructions of the function under transformation.  storeOutput and
storePatchConstant are the original DXIL output writes (operands:
signature id, row, column, value); ret is a return; other stands for any
unrelated instruction.  alloca, storeTemp and finalStore are the
instructions the pass synthesizes: the scratch allocation, the redirected
store into the scratch slot, and the materialized final output write
(opcode, component type of the store primitive, the i32 signature-id
constant, the i32 row and i8 column constants, and the scratch address
its value is loaded from). -/
inductive Instr where
  | storeOutput (sigId : Nat) (row col : IntV) (value : Nat)
  | storePatchConstant (sigId : Nat) (row col : IntV) (value : Nat)
  | ret
  | other (tag : Nat)
  | alloca (slot : Nat) (ty : AllocaType)
  | storeTemp (slot : Nat) (row col : IntV) (value : Nat)
  | finalStore (op : OpCode) (compTy : Nat) (sigId row col : IntV) (src : Option Addr)
deriving DecidableEq, Repr

/-- DxilInst_StoreOutput(i) || DxilInst_StorePatchConstant(i): is this an
original output write the collector recognizes. -/
def isOutputWriteInstr : Instr → Bool
  | .storeOutput _ _ _ _ => true
  | .storePatchConstant _ _ _ _ => true
  | _ => false

/-- Is this instruction a return. -/
def isRetInstr : Instr → Bool
  | .ret => true
  | _ => false

/-- Is this instruction one the pass itself synthesizes. -/
def isSynthInstr : Instr → Bool
  | .alloca _ _ => true
  | .storeTemp _ _ _ _ => true
  | .finalStore _ _ _ _ _ _ => true
  | _ => false

/-- Is this a synthesized final output write. -/
def isFinalStore : Instr → Bool
  | .finalStore _ _ _ _ _ _ => true
  | _ => false

/-- Is this a redirected scratch store. -/
def isStoreTemp : Instr → Bool
  | .storeTemp _ _ _ _ => true
  | _ => false

/-- A source function contains none of the pass's synthesized
instruction forms. -/
def isSourceFn (F : List Instr) : Bool := F.all fun i => !isSynthInstr i

/-- OutputWrite::GetSignatureID (operand 1 of the call). -/
def writeSigId : Instr → Nat
  | .storeOutput sid _ _ _ => sid
  | .storePatchConstant sid _ _ _ => sid
  | _ => 0

/-- OutputWrite::GetRow (operand 2 of the call). -/
def writeRow : Instr → IntV
  | .storeOutput _ r _ _ => r
  | .storePatchConstant _ r _ _ => r
  | _ => ⟨32, 0⟩

/-- OutputWrite::GetColumn (operand 3 of the call). -/
def writeCol : Instr → IntV
  | .storeOutput _ _ c _ => c
  | .storePatchConstant _ _ c _ => c
  | _ => ⟨32, 0⟩

/-- OutputWrite::GetValue (operand 4 of the call). -/
def writeValue : Instr → Nat
  | .storeOutput _ _ _ v => v
  | .storePatchConstant _ _ _ v => v
  | _ => 0

/-- DxilInst_StorePatchConstant(m_Call): the branch condition of
OutputWrite::GetSignatureElement. -/
def writeIsPatch : Instr → Bool
  | .storePatchConstant _ _ _ _ => true
  | _ => false

/-- OutputWrite::GetSignatureElement: a patch-constant store resolves in
the patch-constant signature table, any other store resolves in the
regular output signature table; an out-of-range id is a fatal failure. -/
def elemForWrite (DM : DxilModule) (w : Instr) : Option SigElement :=
  if writeIsPatch w then DM.patchConstantSignature[writeSigId w]?
  else DM.outputSignature[writeSigId w]?

/-- OutputElement: the registered descriptor, with the rows and columns
cached from the signature element at construction. -/
structure OutputElement where
  sigElem : SigElement
  rows : Nat
  cols : Nat
deriving DecidableEq, Repr

/-- The OutputElement constructor: caches GetRows and GetCols. -/
def mkOutputElement (e : SigElement) : OutputElement := ⟨e, e.rows, e.cols⟩

/-- OutputElement::IsSingleElement. -/
def OutputElement.isSingleElement (o : OutputElement) : Bool :=
  o.rows == 1 && o.cols == 1

/-- OutputElement::NumElements. -/
def OutputElement.numElements (o : OutputElement) : Nat := o.rows * o.cols

/-- The type OutputElement::CreateAlloca allocates: the scalar element
type when single, else an array of NumElements elements. -/
def OutputElement.allocaType (o : OutputElement) : AllocaType :=
  if o.isSingleElement then AllocaType.scalar o.sigElem.compType
  else AllocaType.array o.sigElem.compType o.numElements

/-- OutputElement::CreateAlloca, as the instruction it inserts; the
alloca is identified by the registry key it is created for. -/
def OutputElement.createAlloca (o : OutputElement) (slot : Nat) : Instr :=
  Instr.alloca slot o.allocaType

/-- OutputElement::GetAsI32: leave an i32 value alone, truncate a wider
value, zero-extend a narrower one. -/
def getAsI32 (col : IntV) : IntV :=
  if col.width = 32 then col
  else if 32 < col.width then truncIV col 32
  else zextIV col 32

/-- OutputElement::CreateGEP: the row stride is a constant of the row's
own type holding m_Columns, the row offset is row * stride, and the index
adds the column normalized through GetAsI32.  Only the column goes
through GetAsI32. -/
def OutputElement.createGEP (o : OutputElement) (slot : Nat) (row col : IntV) :
    Option Addr := do
  let rowStride : IntV := ⟨row.width, o.cols % 2 ^ row.width⟩
  let rowOffset ← mulIV row rowStride
  let index ← addIV rowOffset (getAsI32 col)
  some (Addr.gep slot index)

/-- OutputElement::GetTempAddr: the alloca itself for a single-element
output, else the computed GEP. -/
def OutputElement.getTempAddr (o : OutputElement) (slot : Nat) (row col : IntV) :
    Option Addr :=
  if o.isSingleElement then some (Addr.direct slot) else o.createGEP slot row col

/-- OutputElement::GetOutputOpCode: dispatch on the descriptor's
patch-constant flag. -/
def OutputElement.getOutputOpCode (o : OutputElement) : OpCode :=
  if o.sigElem.isPatchConstant then OpCode.storePatchConstant
  else OpCode.storeOutput

/-- OutputElement::GetOutputFunction: the store primitive is resolved
from the opcode and the element's component type (OP::GetOpFunc). -/
def OutputElement.getOutputFunction (o : OutputElement) : OpCode × Nat :=
  (o.getOutputOpCode, o.sigElem.compType)

/-- The private OutputElement::StoreOutput(builder, DM, row, col): emits
one call to the store primitive with the i32 signature-id constant, the
i32 row constant, the i8 column constant, and the value loaded from the
scratch slot at GetTempAddr of those same constants. -/
def OutputElement.storeOutputAt (o : OutputElement) (slot : Nat) (row col : Nat) :
    Instr :=
  Instr.finalStore o.getOutputOpCode o.sigElem.compType (i32 o.sigElem.id)
    (i32 row) (i8 col) (o.getTempAddr slot (i32 row) (i8 col))

/-- The public OutputElement::StoreOutput(builder, DM): the row-major
double loop, rows outside, columns inside. -/
def OutputElement.storeOutputAll (o : OutputElement) (slot : Nat) : List Instr :=
  (List.range o.rows).flatMap fun row =>
    (List.range o.cols).map fun col => o.storeOutputAt slot row col

/-- DxilPreserveAllOutputs::collectOutputStores: the writes of the
function, in program order. -/
def collectOutputStores (F : List Instr) : List Instr :=
  F.filter isOutputWriteInstr

/-- The registry std::map<unsigned, OutputElement>, as an association
list sorted strictly by key. -/
abbrev OutputMap := List (Nat × OutputElement)

/-- map.count(k) != 0. -/
def mapContains (m : OutputMap) (k : Nat) : Bool := m.any fun p => p.1 == k

/-- map.insert: ordered insertion that keeps an existing binding. -/
def mapInsert (k : Nat) (v : OutputElement) : OutputMap → OutputMap
  | [] => [(k, v)]
  | p :: rest =>
    if k < p.1 then (k, v) :: p :: rest
    else if k = p.1 then p :: rest
    else p :: mapInsert k v rest

/-- map.find(k), returning the mapped OutputElement. -/
def mapLookup (m : OutputMap) (k : Nat) : Option OutputElement :=
  (m.find? fun p => p.1 == k).map Prod.snd

/-- The keys of the registry in iteration order. -/
def mapKeys (m : OutputMap) : List Nat := m.map Prod.fst

/-- DxilPreserveAllOutputs::generateOutputMap, as its loop over the
collected writes: a write whose id is already registered is skipped,
otherwise its descriptor is resolved and registered; an unresolvable id
aborts. -/
def generateOutputMap (DM : DxilModule) : List Instr → OutputMap → Option OutputMap
  | [], m => some m
  | w :: ws, m =>
    if mapContains m (writeSigId w) then generateOutputMap DM ws m
    else
      match elemForWrite DM w with
      | none => none
      | some e => generateOutputMap DM ws (mapInsert (writeSigId w) (mkOutputElement e) m)

/-- DxilPreserveAllOutputs::createTempAllocas: one alloca per registry
entry, emitted in registry iteration order at the entry insertion
point. -/
def createTempAllocas (m : OutputMap) : List Instr :=
  m.map fun p => p.2.createAlloca p.1

/-- The redirected store OutputElement::StoreTemp emits for one collected
write: a store of the write's value into the scratch slot of the write's
signature id at the write's own row and column operands. -/
def redirectWrite (w : Instr) : Instr :=
  Instr.storeTemp (writeSigId w) (writeRow w) (writeCol w) (writeValue w)

/-- DxilPreserveAllOutputs::insertTempOutputStores: for each collected
write the builder's insertion point is set to that write, so the
redirected store lands immediately before it. -/
def insertTempOutputStores (F : List Instr) : List Instr :=
  F.flatMap fun i => if isOutputWriteInstr i then [redirectWrite i, i] else [i]

/-- The block of final writes emitted for one exit point: every registry
entry in iteration order, each unrolled row-major. -/
def finalBlock (m : OutputMap) : List Instr :=
  m.flatMap fun p => p.2.storeOutputAll p.1

/-- DxilPreserveAllOutputs::insertFinalOutputStores: before every return,
the full block of final writes. -/
def insertFinalOutputStores (m : OutputMap) (F : List Instr) : List Instr :=
  F.flatMap fun i => if isRetInstr i then finalBlock m ++ [i] else [i]

/-- DxilPreserveAllOutputs::removeOriginalOutputStores: erase every
collected original write. -/
def removeOriginalOutputStores (F : List Instr) : List Instr :=
  F.filter fun i => !isOutputWriteInstr i

/-- DxilPreserveAllOutputs::runOnFunction: collect, bail out reporting
false when nothing was collected, otherwise build the registry, allocate
the scratch slots at the entry insertion point, redirect the writes,
materialize the final writes before every return, erase the originals —
and return false (line 223 of the source returns false
unconditionally). -/
def runOnFunction (DM : DxilModule) (F : List Instr) : Option (List Instr × Bool) :=
  let outputStores := collectOutputStores F
  if outputStores.isEmpty then some (F, false)
  else
    match generateOutputMap DM outputStores [] with
    | none => none
    | some outputMap =>
      let F1 := createTempAllocas outputMap ++ F
      let F2 := insertTempOutputStores F1
      let F3 := insertFinalOutputStores outputMap F2
      let F4 := removeOriginalOutputStores F3
      some (F4, false)

/-- Total coordinate count of the registry. -/
def totalCoords (m : OutputMap) : Nat :=
  (m.map fun p => p.2.rows * p.2.cols).sum

/-- The (row value, column value) operand pair of a final write. -/
def coordOf : Instr → Option (Nat × Nat)
  | .finalStore _ _ _ r c _ => some (r.val, c.val)
  | _ => none

/-- The scratch slot a final write sources its value from. -/
def finalStoreSlot : Instr → Option Nat
  | .finalStore _ _ _ _ _ src => src.map Addr.slotOf
  | _ => none

/-- The signature-id operand value of a final write. -/
def finalStoreSigId : Instr → Option Nat
  | .finalStore _ _ sigId _ _ _ => some sigId.val
  | _ => none

/-- The opcode of a final write. -/
def finalStoreOp : Instr → Option OpCode
  | .finalStore op _ _ _ _ _ => some op
  | _ => none

/-- The row-major enumeration of the coordinate rectangle. -/
def rowMajorCoords (rows cols : Nat) : List (Nat × Nat) :=
  (List.range rows).flatMap fun r => (List.range cols).map fun c => (r, c)

/-- Both signature tables give each element the id equal to its index,
as DxilModule construction does. -/
def tableIdsConsistent (tbl : List SigElement) : Bool :=
  (List.range tbl.length).all fun i =>
    match tbl[i]? with
    | some e => e.id == i
    | none => true

/-- Id-index consistency for both tables of a module. -/
def idConsistent (DM : DxilModule) : Bool :=
  tableIdsConsistent DM.outputSignature && tableIdsConsistent DM.patchConstantSignature

/-- Well-formed category flags: elements of the regular output table are
not patch-constant, elements of the patch-constant table are. -/
def wfCategories (DM : DxilModule) : Bool :=
  (DM.outputSignature.all fun e => !e.isPatchConstant) &&
  (DM.patchConstantSignature.all fun e => e.isPatchConstant)

/-- A scalar regular output element used in concrete instantiations. -/
def wOut : SigElement := ⟨0, 1, 1, 3, false, "SV_T"⟩

/-- A 2x2 regular output element used in concrete instantiations. -/
def wOut1 : SigElement := ⟨1, 2, 2, 4, false, "B"⟩

/-- A scalar patch-constant element used in concrete instantiations. -/
def wPC : SigElement := ⟨0, 1, 1, 9, true, "PCout"⟩

/-- A module with two regular outputs and one patch-constant output. -/
def wDM : DxilModule := ⟨[wOut, wOut1], [wPC]⟩

/-- A function writing two regular outputs and a patch constant, with two
exit points. -/
def wF : List Instr :=
  [Instr.other 0,
   Instr.storeOutput 1 (i32 1) (i8 0) 7,
   Instr.storePatchConstant 0 (i32 0) (i8 0) 8,
   Instr.storeOutput 0 (i32 0) (i8 0) 9,
   Instr.ret,
   Instr.other 1,
   Instr.ret]

/-- A module with a single scalar output. -/
def bugDM : DxilModule := ⟨[wOut], []⟩

/-- A function with one output write and one return. -/
def bugF : List Instr := [Instr.storeOutput 0 (i32 0) (i8 0) 7, Instr.ret]

/-- What the pass turns bugF into: an alloca, the redirected store, the
materialized final write, and the return; the original write is gone. -/
def bugFtr : List Instr :=
  [Instr.alloca 0 (AllocaType.scalar 3),
   Instr.storeTemp 0 (i32 0) (i8 0) 7,
   Instr.finalStore OpCode.storeOutput 3 (i32 0) (i32 0) (i8 0)
     (some (Addr.direct 0)),
   Instr.ret]

/-- A 2x1 (non-single) output element used for the GEP counterexample. -/
def cexElem : OutputElement := mkOutputElement ⟨5, 2, 1, 3, false, "M"⟩

/-- A 64-bit row index whose value does not fit in 32 bits. -/
def row64 : IntV := ⟨64, 2 ^ 32⟩

/-- A 32-bit column index. -/
def col32 : IntV := ⟨32, 5⟩

/-- The slot of a synthesized alloca. -/
def allocaSlot : Instr → Option Nat
  | .alloca s _ => some s
  | _ => none

/-- Is this instruction a synthesized alloca. -/
def isAllocaInstr : Instr → Bool
  | .alloca _ _ => true
  | _ => false

/-- Projection used to compare program order before and after the
transformation: an original write and its redirected scratch store
project to the same token, the pass's other synthesized instructions
(allocas, final writes) project away, everything else is kept. -/
def skeletonTok : Instr → Option Instr
  | .storeOutput sid r c v => some (.storeTemp sid r c v)
  | .storePatchConstant sid r c v => some (.storeTemp sid r c v)
  | .alloca _ _ => none
  | .finalStore _ _ _ _ _ _ => none
  | i => some i

/-- The combined effect of redirection, exit materialization and erasure
on one instruction of the original function. -/
def transStep (m : OutputMap) (i : Instr) : List Instr :=
  if isOutputWriteInstr i then [redirectWrite i]
  else if isRetInstr i then finalBlock m ++ [i]
  else [i]

lemma flatMap_id_of {α : Type} (g : α → List α) (L : List α)
    (h : ∀ i ∈ L, g i = [i]) : L.flatMap g = L := by
  induction L with
  | nil => rfl
  | cons a L ih =>
    rw [List.flatMap_cons, h a (by simp), ih fun i hi => h i (by simp [hi])]
    rfl

lemma flatMap_congr_mem {α β : Type} {L : List α} {f g : α → List β}
    (h : ∀ a ∈ L, f a = g a) : L.flatMap f = L.flatMap g := by
  induction L with
  | nil => rfl
  | cons a L ih =>
    rw [List.flatMap_cons, List.flatMap_cons, h a (by simp),
      ih fun i hi => h i (by simp [hi])]

lemma mem_storeOutputAll {o : OutputElement} {slot : Nat} {i : Instr}
    (h : i ∈ o.storeOutputAll slot) : isFinalStore i = true := by
  simp only [OutputElement.storeOutputAll, List.mem_flatMap, List.mem_map] at h
  obtain ⟨r, -, c, -, rfl⟩ := h
  rfl

lemma mem_finalBlock {m : OutputMap} {i : Instr} (h : i ∈ finalBlock m) :
    isFinalStore i = true := by
  simp only [finalBlock, List.mem_flatMap] at h
  obtain ⟨p, -, hp⟩ := h
  exact mem_storeOutputAll hp

lemma ret_not_mem_finalBlock {m : OutputMap} : Instr.ret ∉ finalBlock m := by
  intro h
  have := mem_finalBlock h
  simp [isFinalStore] at this

lemma finalStore_not_write {i : Instr} (h : isFinalStore i = true) :
    isOutputWriteInstr i = false := by
  cases i <;> simp_all [isFinalStore, isOutputWriteInstr]

lemma isRet_eq_true {i : Instr} (h : isRetInstr i = true) : i = Instr.ret := by
  cases i <;> simp_all [isRetInstr]

lemma insertTemp_append (A B : List Instr) :
    insertTempOutputStores (A ++ B) =
      insertTempOutputStores A ++ insertTempOutputStores B :=
  List.flatMap_append _ _ _

lemma insertFinal_append (m : OutputMap) (A B : List Instr) :
    insertFinalOutputStores m (A ++ B) =
      insertFinalOutputStores m A ++ insertFinalOutputStores m B :=
  List.flatMap_append _ _ _

lemma removeOrig_append (A B : List Instr) :
    removeOriginalOutputStores (A ++ B) =
      removeOriginalOutputStores A ++ removeOriginalOutputStores B :=
  List.filter_append _ _

lemma removeOrig_finalBlock (m : OutputMap) :
    List.filter (fun i => !isOutputWriteInstr i) (finalBlock m) = finalBlock m := by
  rw [List.filter_eq_self]
  intro a ha
  simp [finalStore_not_write (mem_finalBlock ha)]

lemma fusion_step (m : OutputMap) (i : Instr) :
    removeOriginalOutputStores (insertFinalOutputStores m (insertTempOutputStores [i])) =
      transStep m i := by
  cases i <;>
    simp [insertTempOutputStores, insertFinalOutputStores, removeOriginalOutputStores,
      transStep, redirectWrite, isOutputWriteInstr, isRetInstr, writeSigId, writeRow,
      writeCol, writeValue, List.filter_append, removeOrig_finalBlock m] <;>
    (intro a ha; exact finalStore_not_write (mem_finalBlock ha))

lemma trans_fusion (m : OutputMap) (F : List Instr) :
    removeOriginalOutputStores (insertFinalOutputStores m (insertTempOutputStores F)) =
      F.flatMap (transStep m) := by
  induction F with
  | nil => rfl
  | cons i F ih =>
    rw [show (i :: F) = [i] ++ F from rfl, insertTemp_append, insertFinal_append,
      removeOrig_append, ih, fusion_step, List.flatMap_append]
    congr 1
    rw [List.flatMap_cons]
    simp

lemma transStep_synth (m : OutputMap) (i : Instr) (h : isSynthInstr i = true) :
    transStep m i = [i] := by
  cases i <;> simp_all [transStep, isSynthInstr, isOutputWriteInstr, isRetInstr]

lemma insertTemp_allocas (m' : OutputMap) :
    insertTempOutputStores (createTempAllocas m') = createTempAllocas m' := by
  apply flatMap_id_of
  intro i hi
  simp only [createTempAllocas, List.mem_map] at hi
  obtain ⟨p, -, rfl⟩ := hi
  simp [OutputElement.createAlloca, isOutputWriteInstr]

lemma insertFinal_allocas (m m' : OutputMap) :
    insertFinalOutputStores m (createTempAllocas m') = createTempAllocas m' := by
  apply flatMap_id_of
  intro i hi
  simp only [createTempAllocas, List.mem_map] at hi
  obtain ⟨p, -, rfl⟩ := hi
  simp [OutputElement.createAlloca, isRetInstr]

lemma removeOrig_allocas (m' : OutputMap) :
    removeOriginalOutputStores (createTempAllocas m') = createTempAllocas m' := by
  rw [removeOriginalOutputStores, List.filter_eq_self]
  intro i hi
  simp only [createTempAllocas, List.mem_map] at hi
  obtain ⟨p, -, rfl⟩ := hi
  simp [OutputElement.createAlloca, isOutputWriteInstr]

lemma runOnFunction_eq (DM : DxilModule) (F : List Instr) (m : OutputMap)
    (hne : (collectOutputStores F).isEmpty = false)
    (hm : generateOutputMap DM (collectOutputStores F) [] = some m) :
    runOnFunction DM F =
      some (createTempAllocas m ++ F.flatMap (transStep m), false) := by
  rw [runOnFunction]
  simp only [hne, Bool.false_eq_true, if_false, hm]
  congr 2
  rw [show insertTempOutputStores (createTempAllocas m ++ F) =
      insertTempOutputStores (createTempAllocas m) ++ insertTempOutputStores F from
    List.flatMap_append _ _ _]
  rw [insertTemp_allocas]
  rw [show insertFinalOutputStores m
      (createTempAllocas m ++ insertTempOutputStores F) =
      insertFinalOutputStores m (createTempAllocas m) ++
        insertFinalOutputStores m (insertTempOutputStores F) from
    List.flatMap_append _ _ _]
  rw [insertFinal_allocas]
  rw [show removeOriginalOutputStores
      (createTempAllocas m ++
        insertFinalOutputStores m (insertTempOutputStores F)) =
      removeOriginalOutputStores (createTempAllocas m) ++
        removeOriginalOutputStores
          (insertFinalOutputStores m (insertTempOutputStores F)) from
    List.filter_append _ _]
  rw [removeOrig_allocas, trans_fusion]

lemma storeOutputAll_length (o : OutputElement) (slot : Nat) :
    (o.storeOutputAll slot).length = o.rows * o.cols := by
  rw [OutputElement.storeOutputAll, List.length_flatMap]
  have h : (List.range o.rows).map
      (List.length ∘ fun row => (List.range o.cols).map fun col =>
        o.storeOutputAt slot row col) =
      (List.range o.rows).map fun _ => o.cols :=
    List.map_congr_left fun r _ => by simp
  rw [h, List.map_const', List.sum_replicate, List.length_range, smul_eq_mul]

lemma countP_final_finalBlock (m : OutputMap) :
    (finalBlock m).countP isFinalStore = totalCoords m := by
  rw [List.countP_eq_length.mpr fun a ha => mem_finalBlock ha]
  rw [finalBlock, List.length_flatMap]
  have h : m.map (List.length ∘ fun p : Nat × OutputElement => p.2.storeOutputAll p.1) =
      m.map fun p => p.2.rows * p.2.cols :=
    List.map_congr_left fun p _ => storeOutputAll_length p.2 p.1
  rw [h, totalCoords]

lemma countP_finalStore_trans (m : OutputMap) (F : List Instr)
    (hs : ∀ i ∈ F, isFinalStore i = false) :
    (F.flatMap (transStep m)).countP isFinalStore =
      F.countP isRetInstr * totalCoords m := by
  induction F with
  | nil => simp
  | cons i F ih =>
    rw [List.flatMap_cons, List.countP_append,
      ih fun j hj => hs j (List.mem_cons_of_mem i hj), List.countP_cons]
    by_cases hw : isOutputWriteInstr i = true
    · have hr : isRetInstr i = false := by
        cases i <;> simp_all [isOutputWriteInstr, isRetInstr]
      simp [transStep, hw, hr, redirectWrite, isFinalStore]
    · by_cases hr : isRetInstr i = true
      · have he : i = Instr.ret := isRet_eq_true hr
        subst he
        rw [show transStep m Instr.ret = finalBlock m ++ [Instr.ret] from rfl]
        rw [List.countP_append, countP_final_finalBlock]
        simp [isFinalStore, isRetInstr, Nat.add_mul]
        ring
      · have h0 : transStep m i = [i] := by simp [transStep, hw, hr]
        have h1 : isFinalStore i = false := hs i (List.mem_cons_self i F)
        simp [h0, h1, hr, List.countP_cons]

lemma filterMap_flatMap_my {α β γ : Type} (L : List α) (g : α → List β)
    (f : β → Option γ) :
    (L.flatMap g).filterMap f = L.flatMap fun a => (g a).filterMap f := by
  induction L with
  | nil => rfl
  | cons a L ih =>
    rw [List.flatMap_cons, List.filterMap_append, ih, List.flatMap_cons]

lemma filterMap_eq_map_of {α β : Type} {l : List α} {f : α → Option β} {g : α → β}
    (h : ∀ a ∈ l, f a = some (g a)) : l.filterMap f = l.map g := by
  induction l with
  | nil => rfl
  | cons a l ih =>
    have h0 := h a (List.mem_cons_self a l)
    simp [List.filterMap_cons, h0, ih fun x hx => h x (List.mem_cons_of_mem a hx)]

lemma filterMap_coord_storeOutputAll (o : OutputElement) (slot : Nat)
    (hr : o.rows ≤ 2 ^ 32) (hc : o.cols ≤ 2 ^ 8) :
    (o.storeOutputAll slot).filterMap coordOf = rowMajorCoords o.rows o.cols := by
  rw [OutputElement.storeOutputAll, rowMajorCoords, filterMap_flatMap_my]
  apply flatMap_congr_mem
  intro r hrm
  rw [List.filterMap_map]
  apply filterMap_eq_map_of
  intro c hcm
  have h1 : r < 2 ^ 32 := lt_of_lt_of_le (List.mem_range.mp hrm) hr
  have h2 : c < 2 ^ 8 := lt_of_lt_of_le (List.mem_range.mp hcm) hc
  show coordOf (o.storeOutputAt slot r c) = some (r, c)
  rw [show coordOf (o.storeOutputAt slot r c) = some (r % 2 ^ 32, c % 2 ^ 8) from rfl,
    Nat.mod_eq_of_lt h1, Nat.mod_eq_of_lt h2]

lemma mem_rowMajorCoords {rows cols r c : Nat} :
    (r, c) ∈ rowMajorCoords rows cols ↔ r < rows ∧ c < cols := by
  unfold rowMajorCoords
  rw [List.mem_flatMap]
  constructor
  · rintro ⟨a, ha, hb⟩
    rw [List.mem_map] at hb
    obtain ⟨b, hbr, heq⟩ := hb
    injection heq with h1 h2
    subst h1
    subst h2
    exact ⟨List.mem_range.mp ha, List.mem_range.mp hbr⟩
  · rintro ⟨h1, h2⟩
    exact ⟨r, List.mem_range.mpr h1,
      List.mem_map.mpr ⟨c, List.mem_range.mpr h2, rfl⟩⟩

lemma nodup_rowMajorCoords (rows cols : Nat) : (rowMajorCoords rows cols).Nodup := by
  induction rows with
  | zero => simp [rowMajorCoords]
  | succ n ih =>
    rw [rowMajorCoords, List.range_succ, List.flatMap_append]
    rw [List.nodup_append]
    refine ⟨ih, ?_, ?_⟩
    · rw [List.flatMap_cons]
      simp only [List.flatMap_nil, List.append_nil]
      refine List.Nodup.map ?_ (List.nodup_range cols)
      intro x y h
      injection h
    · intro x hx hy
      rcases x with ⟨r, c⟩
      have h1 : r < n := (mem_rowMajorCoords.mp hx).1
      rw [List.flatMap_cons] at hy
      simp only [List.flatMap_nil, List.append_nil, List.mem_map] at hy
      obtain ⟨b, -, heq⟩ := hy
      injection heq with h2 h3
      omega

lemma getTempAddr_const (o : OutputElement) (slot r c : Nat) :
    ∃ a, o.getTempAddr slot (i32 r) (i8 c) = some a ∧ a.slotOf = slot := by
  cases h : o.isSingleElement
  · refine ⟨Addr.gep slot
      ⟨32, (r % 2 ^ 32 * (o.cols % 2 ^ 32) % 2 ^ 32 + c % 2 ^ 8) % 2 ^ 32⟩, ?_, rfl⟩
    simp [OutputElement.getTempAddr, h, OutputElement.createGEP, mulIV, addIV,
      getAsI32, zextIV, i32, i8]
  · exact ⟨Addr.direct slot, by simp [OutputElement.getTempAddr, h], rfl⟩

lemma finalStoreSlot_storeOutputAt (o : OutputElement) (slot r c : Nat) :
    finalStoreSlot (o.storeOutputAt slot r c) = some slot := by
  obtain ⟨a, ha, hs⟩ := getTempAddr_const o slot r c
  simp [finalStoreSlot, OutputElement.storeOutputAt, ha, hs]

lemma finalStoreSlot_mem_storeOutputAll {o : OutputElement} {slot : Nat} {i : Instr}
    (h : i ∈ o.storeOutputAll slot) : finalStoreSlot i = some slot := by
  simp only [OutputElement.storeOutputAll, List.mem_flatMap, List.mem_map] at h
  obtain ⟨r, -, c, -, rfl⟩ := h
  exact finalStoreSlot_storeOutputAt o slot r c

lemma filter_slot_storeOutputAll_self (o : OutputElement) (slot : Nat) :
    (o.storeOutputAll slot).filter (fun i => finalStoreSlot i == some slot) =
      o.storeOutputAll slot := by
  rw [List.filter_eq_self]
  intro a ha
  simp [finalStoreSlot_mem_storeOutputAll ha]

lemma filter_slot_storeOutputAll_ne (o : OutputElement) (slot k : Nat)
    (h : slot ≠ k) :
    (o.storeOutputAll slot).filter (fun i => finalStoreSlot i == some k) = [] := by
  rw [List.filter_eq_nil_iff]
  intro a ha
  simp [finalStoreSlot_mem_storeOutputAll ha, h]

lemma finalBlock_filter_slot (m : OutputMap)
    (hpw : (mapKeys m).Pairwise (· ≠ ·)) (p : Nat × OutputElement) (hp : p ∈ m) :
    (finalBlock m).filter (fun i => finalStoreSlot i == some p.1) =
      p.2.storeOutputAll p.1 := by
  induction m with
  | nil => cases hp
  | cons q m ih =>
    rw [show mapKeys (q :: m) = q.1 :: mapKeys m from rfl] at hpw
    obtain ⟨hhead, htail⟩ := List.pairwise_cons.mp hpw
    rw [finalBlock, List.flatMap_cons, List.filter_append]
    rcases List.mem_cons.mp hp with rfl | hpm
    · rw [filter_slot_storeOutputAll_self]
      have h0 : List.filter (fun i => finalStoreSlot i == some p.1)
          (m.flatMap fun r => r.2.storeOutputAll r.1) = [] := by
        rw [List.filter_eq_nil_iff]
        intro a ha
        rw [List.mem_flatMap] at ha
        obtain ⟨r, hrm, hra⟩ := ha
        have hslot := finalStoreSlot_mem_storeOutputAll hra
        have hne : r.1 ≠ p.1 :=
          fun hEq => hhead r.1 (List.mem_map.mpr ⟨r, hrm, rfl⟩) hEq.symm
        simp [hslot, hne]
      rw [h0, List.append_nil]
    · have hq : q.1 ≠ p.1 :=
        hhead p.1 (List.mem_map.mpr ⟨p, hpm, rfl⟩)
      rw [filter_slot_storeOutputAll_ne q.2 q.1 p.1 hq]
      have hrec := ih htail hpm
      rw [finalBlock] at hrec
      rw [hrec, List.nil_append]

lemma transStep_ret_cases (m : OutputMap) (i : Instr) :
    Instr.ret ∉ transStep m i ∨ transStep m i = finalBlock m ++ [Instr.ret] := by
  by_cases hw : isOutputWriteInstr i = true
  · left
    simp [transStep, hw, redirectWrite]
  · by_cases hr : isRetInstr i = true
    · right
      rw [isRet_eq_true hr]
      rfl
    · left
      have h0 : transStep m i = [i] := by simp [transStep, hw, hr]
      rw [h0]
      intro hmem
      rw [List.mem_singleton] at hmem
      rw [← hmem] at hr
      simp [isRetInstr] at hr

lemma flatMap_ret_suffix (m : OutputMap) (F : List Instr) :
    ∀ pre post, F.flatMap (transStep m) = pre ++ Instr.ret :: post →
      finalBlock m <:+ pre := by
  induction F with
  | nil =>
    intro pre post h
    simp at h
  | cons i F ih =>
    intro pre post h
    rw [List.flatMap_cons] at h
    rcases List.append_eq_append_iff.mp h with ⟨a2, ha1, ha2⟩ | ⟨c2, hc1, hc2⟩
    · subst ha1
      obtain ⟨t, ht⟩ := ih a2 post ha2
      exact ⟨transStep m i ++ t, by rw [List.append_assoc, ht]⟩
    · cases c2 with
      | nil =>
        have h0 := ih [] post (by simpa using hc2.symm)
        have hb : finalBlock m = [] := List.suffix_nil.mp h0
        rw [hb]
        exact List.nil_suffix
      | cons x c2 =>
        injection hc2 with hx h7
        subst hx
        have hmem : Instr.ret ∈ transStep m i := by
          rw [hc1]
          simp
        rcases transStep_ret_cases m i with hno | heq
        · exact absurd hmem hno
        · rw [heq] at hc1
          rcases List.append_eq_append_iff.mp hc1 with ⟨a3, h3, h4⟩ | ⟨c3, h5, h6⟩
          · cases a3 with
            | nil =>
              refine ⟨[], ?_⟩
              rw [h3, List.append_nil, List.nil_append]
            | cons y a3 =>
              injection h4 with hy h7
              exact absurd h7.symm (by simp)
          · cases c3 with
            | nil =>
              rw [List.append_nil] at h5
              exact ⟨[], by rw [List.nil_append]; exact h5⟩
            | cons y c3 =>
              injection h6 with hy h7
              subst hy
              have hin : Instr.ret ∈ finalBlock m := by
                rw [h5]
                simp
              exact absurd hin ret_not_mem_finalBlock

lemma ret_not_mem_allocas (m : OutputMap) : Instr.ret ∉ createTempAllocas m := by
  intro h
  rw [createTempAllocas, List.mem_map] at h
  obtain ⟨p, -, heq⟩ := h
  simp [OutputElement.createAlloca] at heq

lemma trans_ret_suffix (m : OutputMap) (F : List Instr) (pre post : List Instr)
    (h : createTempAllocas m ++ F.flatMap (transStep m) = pre ++ Instr.ret :: post) :
    finalBlock m <:+ pre := by
  rcases List.append_eq_append_iff.mp h with ⟨a2, ha1, ha2⟩ | ⟨c2, hc1, hc2⟩
  · subst ha1
    obtain ⟨t, ht⟩ := flatMap_ret_suffix m F a2 post ha2
    exact ⟨createTempAllocas m ++ t, by rw [List.append_assoc, ht]⟩
  · cases c2 with
    | nil =>
      have h0 := flatMap_ret_suffix m F [] post (by simpa using hc2.symm)
      have hb : finalBlock m = [] := List.suffix_nil.mp h0
      rw [hb]
      exact List.nil_suffix
    | cons x c2 =>
      injection hc2 with hx h7
      subst hx
      have hin : Instr.ret ∈ createTempAllocas m := by
        rw [hc1]
        simp
      exact absurd hin (ret_not_mem_allocas m)

lemma skeleton_finalBlock (m : OutputMap) :
    (finalBlock m).filterMap skeletonTok = [] := by
  rw [List.filterMap_eq_nil_iff]
  intro a ha
  have := mem_finalBlock ha
  cases a <;> simp_all [skeletonTok, isFinalStore]

lemma skeleton_allocas (m : OutputMap) :
    (createTempAllocas m).filterMap skeletonTok = [] := by
  rw [createTempAllocas, List.filterMap_map]
  rw [List.filterMap_eq_nil_iff]
  intro p hp
  rfl

lemma skeleton_trans (m : OutputMap) (F : List Instr) :
    (F.flatMap (transStep m)).filterMap skeletonTok = F.filterMap skeletonTok := by
  induction F with
  | nil => rfl
  | cons i F ih =>
    rw [List.flatMap_cons, List.filterMap_append, ih,
      show (i :: F) = [i] ++ F from rfl, List.filterMap_append]
    congr 1
    cases i <;>
      simp [transStep, redirectWrite, skeletonTok, isOutputWriteInstr, isRetInstr,
        writeSigId, writeRow, writeCol, writeValue, List.filterMap_append,
        List.filterMap_cons, skeleton_finalBlock]

lemma contains_iff_memKeys {m : OutputMap} {k : Nat} :
    mapContains m k = true ↔ k ∈ mapKeys m := by
  simp [mapContains, mapKeys, List.any_eq_true, List.mem_map, beq_iff_eq]

lemma keys_mem_mapInsert {k k' : Nat} {v : OutputElement} {m : OutputMap} :
    k' ∈ mapKeys (mapInsert k v m) ↔ k' = k ∨ k' ∈ mapKeys m := by
  induction m with
  | nil => simp [mapInsert, mapKeys]
  | cons q m ih =>
    by_cases h1 : k < q.1
    · rw [mapInsert, if_pos h1]
      simp [mapKeys]
    · by_cases h2 : k = q.1
      · rw [mapInsert, if_neg h1, if_pos h2]
        subst h2
        simp [mapKeys]
      · rw [mapInsert, if_neg h1, if_neg h2]
        rw [show mapKeys (q :: mapInsert k v m) = q.1 :: mapKeys (mapInsert k v m)
          from rfl]
        rw [show mapKeys (q :: m) = q.1 :: mapKeys m from rfl]
        simp only [List.mem_cons, ih]
        tauto

lemma contains_mapInsert {k k' : Nat} {v : OutputElement} {m : OutputMap} :
    mapContains (mapInsert k v m) k' = true ↔ k' = k ∨ mapContains m k' = true := by
  rw [contains_iff_memKeys, keys_mem_mapInsert, contains_iff_memKeys]

lemma pairwise_keys_mapInsert {k : Nat} {v : OutputElement} {m : OutputMap}
    (h : (mapKeys m).Pairwise (· < ·)) :
    (mapKeys (mapInsert k v m)).Pairwise (· < ·) := by
  induction m with
  | nil => simp [mapInsert, mapKeys]
  | cons q m ih =>
    rw [show mapKeys (q :: m) = q.1 :: mapKeys m from rfl] at h
    obtain ⟨hq, hm⟩ := List.pairwise_cons.mp h
    by_cases h1 : k < q.1
    · rw [mapInsert, if_pos h1]
      rw [show mapKeys ((k, v) :: q :: m) = k :: q.1 :: mapKeys m from rfl]
      refine List.pairwise_cons.mpr ⟨?_, h⟩
      intro a ha
      rcases List.mem_cons.mp ha with rfl | ha2
      · exact h1
      · exact lt_trans h1 (hq a ha2)
    · by_cases h2 : k = q.1
      · rw [mapInsert, if_neg h1, if_pos h2]
        exact h
      · rw [mapInsert, if_neg h1, if_neg h2]
        rw [show mapKeys (q :: mapInsert k v m) = q.1 :: mapKeys (mapInsert k v m)
          from rfl]
        refine List.pairwise_cons.mpr ⟨?_, ih hm⟩
        intro a ha
        rcases keys_mem_mapInsert.mp ha with rfl | ha2
        · omega
        · exact hq a ha2

lemma contains_cons {q : Nat × OutputElement} {m : OutputMap} {k : Nat} :
    mapContains (q :: m) k = (q.1 == k || mapContains m k) := by
  simp [mapContains, List.any_cons]

lemma mapLookup_cons {q : Nat × OutputElement} {m : OutputMap} {k : Nat} :
    mapLookup (q :: m) k =
      if (q.1 == k) = true then some q.2 else mapLookup m k := by
  by_cases h : (q.1 == k) = true
  · simp [mapLookup, List.find?_cons, h]
  · have h2 : (q.1 == k) = false := Bool.eq_false_iff.mpr h
    simp [mapLookup, List.find?_cons, h2, h]

lemma mapLookup_mapInsert_self {k : Nat} {v : OutputElement} {m : OutputMap}
    (h : mapContains m k = false) : mapLookup (mapInsert k v m) k = some v := by
  induction m with
  | nil => simp [mapInsert, mapLookup, List.find?_cons]
  | cons q m ih =>
    have hor := Bool.or_eq_false_iff.mp (contains_cons ▸ h)
    have hq : (q.1 == k) = false := hor.1
    have hm : mapContains m k = false := hor.2
    by_cases h1 : k < q.1
    · rw [mapInsert, if_pos h1]
      simp [mapLookup, List.find?_cons]
    · by_cases h2 : k = q.1
      · rw [← h2] at hq
        simp at hq
      · rw [mapInsert, if_neg h1, if_neg h2, mapLookup_cons,
          if_neg (by simp [hq] : ¬(q.1 == k) = true)]
        exact ih hm

lemma mapLookup_mapInsert_ne {k k' : Nat} {v : OutputElement} {m : OutputMap}
    (h : k' ≠ k) : mapLookup (mapInsert k v m) k' = mapLookup m k' := by
  have hkk : (k == k') = false := by simp [Ne.symm h]
  induction m with
  | nil => simp [mapInsert, mapLookup, List.find?_cons, hkk]
  | cons q m ih =>
    by_cases h1 : k < q.1
    · rw [mapInsert, if_pos h1, mapLookup_cons,
        if_neg (by simp [hkk] : ¬((k, v).1 == k') = true)]
    · by_cases h2 : k = q.1
      · rw [mapInsert, if_neg h1, if_pos h2]
      · rw [mapInsert, if_neg h1, if_neg h2, mapLookup_cons,
          show mapLookup (q :: m) k' =
            if (q.1 == k') = true then some q.2 else mapLookup m k' from
            mapLookup_cons]
        by_cases h3 : (q.1 == k') = true
        · rw [if_pos h3, if_pos h3]
        · rw [if_neg h3, if_neg h3]
          exact ih

lemma contains_iff_lookup {m : OutputMap} {k : Nat} :
    mapContains m k = true ↔ (mapLookup m k).isSome = true := by
  simp [mapContains, mapLookup, List.any_eq_true, List.find?_isSome]

lemma mem_mapInsert {k : Nat} {v : OutputElement} {m : OutputMap}
    {p : Nat × OutputElement} (h : p ∈ mapInsert k v m) : p = (k, v) ∨ p ∈ m := by
  induction m with
  | nil => simpa [mapInsert] using h
  | cons q m ih =>
    by_cases h1 : k < q.1
    · rw [mapInsert, if_pos h1] at h
      rcases List.mem_cons.mp h with rfl | h2
      · exact Or.inl rfl
      · exact Or.inr h2
    · by_cases h2 : k = q.1
      · rw [mapInsert, if_neg h1, if_pos h2] at h
        exact Or.inr h
      · rw [mapInsert, if_neg h1, if_neg h2] at h
        rcases List.mem_cons.mp h with rfl | h3
        · exact Or.inr (List.mem_cons_self _ _)
        · rcases ih h3 with h4 | h4
          · exact Or.inl h4
          · exact Or.inr (List.mem_cons_of_mem q h4)

lemma gom_sorted {DM : DxilModule} {calls : List Instr} {m m' : OutputMap}
    (h : generateOutputMap DM calls m = some m')
    (hs : (mapKeys m).Pairwise (· < ·)) : (mapKeys m').Pairwise (· < ·) := by
  induction calls generalizing m with
  | nil =>
    rw [generateOutputMap] at h
    injection h with h
    subst h
    exact hs
  | cons w ws ih =>
    rw [generateOutputMap] at h
    by_cases h1 : mapContains m (writeSigId w) = true
    · rw [if_pos h1] at h
      exact ih h hs
    · rw [if_neg h1] at h
      cases he : elemForWrite DM w with
      | none =>
        rw [he] at h
        simp at h
      | some e =>
        rw [he] at h
        exact ih h (pairwise_keys_mapInsert hs)

lemma gom_contains {DM : DxilModule} {calls : List Instr} {m m' : OutputMap}
    (h : generateOutputMap DM calls m = some m') (sid : Nat) :
    mapContains m' sid = true ↔
      (mapContains m sid = true ∨ sid ∈ calls.map writeSigId) := by
  induction calls generalizing m with
  | nil =>
    rw [generateOutputMap] at h
    injection h with h
    subst h
    simp
  | cons w ws ih =>
    rw [generateOutputMap] at h
    by_cases h1 : mapContains m (writeSigId w) = true
    · rw [if_pos h1] at h
      rw [ih h]
      have hx : sid = writeSigId w → mapContains m sid = true := fun hEq => hEq ▸ h1
      simp only [List.map_cons, List.mem_cons]
      tauto
    · rw [if_neg h1] at h
      cases he : elemForWrite DM w with
      | none =>
        rw [he] at h
        simp at h
      | some e =>
        rw [he] at h
        rw [ih h, contains_mapInsert]
        simp only [List.map_cons, List.mem_cons]
        tauto

lemma gom_persist {DM : DxilModule} {calls : List Instr} {m m' : OutputMap}
    {sid : Nat} (h : generateOutputMap DM calls m = some m')
    (hc : mapContains m sid = true) : mapLookup m' sid = mapLookup m sid := by
  induction calls generalizing m with
  | nil =>
    rw [generateOutputMap] at h
    injection h with h
    subst h
    rfl
  | cons w ws ih =>
    rw [generateOutputMap] at h
    by_cases h1 : mapContains m (writeSigId w) = true
    · rw [if_pos h1] at h
      exact ih h hc
    · rw [if_neg h1] at h
      cases he : elemForWrite DM w with
      | none =>
        rw [he] at h
        simp at h
      | some e =>
        rw [he] at h
        have hne : sid ≠ writeSigId w := by
          intro hEq
          rw [← hEq] at h1
          exact h1 hc
        have hc2 : mapContains (mapInsert (writeSigId w) (mkOutputElement e) m) sid =
            true := contains_mapInsert.mpr (Or.inr hc)
        rw [ih h hc2, mapLookup_mapInsert_ne hne]

lemma gom_first {DM : DxilModule} {calls : List Instr} {m m' : OutputMap}
    {sid : Nat} {w : Instr} (h : generateOutputMap DM calls m = some m')
    (hc : mapContains m sid = false)
    (hf : calls.find? (fun x => writeSigId x == sid) = some w) :
    mapLookup m' sid = (elemForWrite DM w).map mkOutputElement := by
  induction calls generalizing m with
  | nil => simp at hf
  | cons w0 ws ih =>
    rw [List.find?_cons] at hf
    by_cases hb : (writeSigId w0 == sid) = true
    · simp only [hb] at hf
      injection hf with hf
      subst hf
      have hid : writeSigId w0 = sid := by simpa using hb
      rw [generateOutputMap] at h
      have h1 : ¬ mapContains m (writeSigId w0) = true := by
        rw [hid, hc]
        simp
      rw [if_neg h1] at h
      cases he : elemForWrite DM w0 with
      | none =>
        rw [he] at h
        simp at h
      | some e =>
        rw [he] at h
        have hcont : mapContains (mapInsert (writeSigId w0) (mkOutputElement e) m) sid =
            true := contains_mapInsert.mpr (Or.inl hid.symm)
        have hl : mapLookup (mapInsert (writeSigId w0) (mkOutputElement e) m) sid =
            some (mkOutputElement e) := by
          rw [← hid]
          exact mapLookup_mapInsert_self (hid ▸ hc)
        rw [gom_persist h hcont, hl]
        rfl
    · simp only [hb] at hf
      have hbne : writeSigId w0 ≠ sid := by simpa using hb
      rw [generateOutputMap] at h
      by_cases h1 : mapContains m (writeSigId w0) = true
      · rw [if_pos h1] at h
        exact ih h hc hf
      · rw [if_neg h1] at h
        cases he : elemForWrite DM w0 with
        | none =>
          rw [he] at h
          simp at h
        | some e =>
          rw [he] at h
          have hc2 : mapContains
              (mapInsert (writeSigId w0) (mkOutputElement e) m) sid = false := by
            cases hx : mapContains (mapInsert (writeSigId w0) (mkOutputElement e) m) sid
            · rfl
            · exfalso
              rcases contains_mapInsert.mp hx with h4 | h4
              · exact hbne h4.symm
              · rw [hc] at h4
                simp at h4
          exact ih h hc2 hf

lemma tableIds_get {tbl : List SigElement} {i : Nat} {e : SigElement}
    (h : tableIdsConsistent tbl = true) (hg : tbl[i]? = some e) : e.id = i := by
  rw [tableIdsConsistent, List.all_eq_true] at h
  have hi : i < tbl.length := (List.getElem?_eq_some.mp hg).1
  have h2 := h i (List.mem_range.mpr hi)
  rw [hg] at h2
  simpa using h2

lemma elem_id {DM : DxilModule} {w : Instr} {e : SigElement}
    (hid : idConsistent DM = true) (he : elemForWrite DM w = some e) :
    e.id = writeSigId w := by
  rw [idConsistent, Bool.and_eq_true] at hid
  rw [elemForWrite] at he
  by_cases hp : writeIsPatch w = true
  · rw [if_pos hp] at he
    exact tableIds_get hid.2 he
  · rw [if_neg hp] at he
    exact tableIds_get hid.1 he

lemma gom_id_consistent {DM : DxilModule} {calls : List Instr} {m m' : OutputMap}
    (hid : idConsistent DM = true) (h : generateOutputMap DM calls m = some m')
    (hbase : ∀ p ∈ m, p.2.sigElem.id = p.1) : ∀ p ∈ m', p.2.sigElem.id = p.1 := by
  induction calls generalizing m with
  | nil =>
    rw [generateOutputMap] at h
    injection h with h
    subst h
    exact hbase
  | cons w ws ih =>
    rw [generateOutputMap] at h
    by_cases h1 : mapContains m (writeSigId w) = true
    · rw [if_pos h1] at h
      exact ih h hbase
    · rw [if_neg h1] at h
      cases he : elemForWrite DM w with
      | none =>
        rw [he] at h
        simp at h
      | some e =>
        rw [he] at h
        refine ih h ?_
        intro p hp
        rcases mem_mapInsert hp with rfl | h2
        · exact elem_id hid he
        · exact hbase p h2

lemma pairwise_lt_ext : ∀ (l l' : List Nat), l.Pairwise (· < ·) →
    l'.Pairwise (· < ·) → (∀ x, x ∈ l ↔ x ∈ l') → l = l' := by
  intro l
  induction l with
  | nil =>
    intro l' _ _ hm
    cases l' with
    | nil => rfl
    | cons b t => exact absurd ((hm b).mpr (by simp)) (by simp)
  | cons a t ih =>
    intro l' hl hl' hm
    cases l' with
    | nil => exact absurd ((hm a).mp (by simp)) (by simp)
    | cons b t' =>
      obtain ⟨ha, ht⟩ := List.pairwise_cons.mp hl
      obtain ⟨hb, ht'⟩ := List.pairwise_cons.mp hl'
      have hab : a = b := by
        rcases List.mem_cons.mp ((hm a).mp (by simp)) with h1 | h1
        · exact h1
        · rcases List.mem_cons.mp ((hm b).mpr (by simp)) with h2 | h2
          · exact h2.symm
          · have h3 := hb a h1
            have h4 := ha b h2
            omega
      subst hab
      congr 1
      apply ih t' ht ht'
      intro x
      constructor
      · intro hx
        have hax : a < x := ha x hx
        rcases List.mem_cons.mp ((hm x).mp (List.mem_cons_of_mem a hx)) with rfl | h2
        · omega
        · exact h2
      · intro hx
        have hax : a < x := hb x hx
        rcases List.mem_cons.mp ((hm x).mpr (List.mem_cons_of_mem a hx)) with rfl | h2
        · omega
        · exact h2

lemma countP_storeTemp_finalBlock (m : OutputMap) :
    (finalBlock m).countP isStoreTemp = 0 := by
  rw [List.countP_eq_zero]
  intro a ha
  have h := mem_finalBlock ha
  cases a <;> simp_all [isFinalStore, isStoreTemp]

lemma countP_storeTemp_trans (m : OutputMap) (F : List Instr)
    (hs : ∀ i ∈ F, isStoreTemp i = false) :
    (F.flatMap (transStep m)).countP isStoreTemp = (collectOutputStores F).length := by
  induction F with
  | nil => simp [collectOutputStores]
  | cons i F ih =>
    rw [List.flatMap_cons, List.countP_append,
      ih fun j hj => hs j (List.mem_cons_of_mem i hj)]
    have hcol : collectOutputStores (i :: F) =
        if isOutputWriteInstr i = true then i :: collectOutputStores F
        else collectOutputStores F := List.filter_cons
    rw [hcol]
    by_cases hw : isOutputWriteInstr i = true
    · rw [if_pos hw]
      simp [transStep, hw, redirectWrite, isStoreTemp]
      omega
    · rw [if_neg hw]
      by_cases hr : isRetInstr i = true
      · have he : i = Instr.ret := isRet_eq_true hr
        subst he
        rw [show transStep m Instr.ret = finalBlock m ++ [Instr.ret] from rfl,
          List.countP_append, countP_storeTemp_finalBlock]
        simp [isStoreTemp]
      · have h0 : transStep m i = [i] := by simp [transStep, hw, hr]
        have h1 : isStoreTemp i = false := hs i (List.mem_cons_self i F)
        simp [h0, h1]

lemma no_writes_result (m : OutputMap) (F : List Instr) :
    ∀ i ∈ createTempAllocas m ++ F.flatMap (transStep m),
      isOutputWriteInstr i = false := by
  intro i hi
  rcases List.mem_append.mp hi with hA | hB
  · rw [createTempAllocas, List.mem_map] at hA
    obtain ⟨p, -, rfl⟩ := hA
    rfl
  · rw [List.mem_flatMap] at hB
    obtain ⟨j, hj, hji⟩ := hB
    by_cases hw : isOutputWriteInstr j = true
    · rw [transStep, if_pos hw, List.mem_singleton] at hji
      subst hji
      rfl
    · by_cases hr : isRetInstr j = true
      · rw [transStep, if_neg hw, if_pos hr] at hji
        rcases List.mem_append.mp hji with h1 | h1
        · exact finalStore_not_write (mem_finalBlock h1)
        · rw [List.mem_singleton] at h1
          subst h1
          rw [isRet_eq_true hr]
          rfl
      · rw [transStep, if_neg hw, if_neg hr, List.mem_singleton] at hji
        subst hji
        exact Bool.eq_false_iff.mpr hw

lemma filter_retFinal_finalBlock (m : OutputMap) :
    (finalBlock m).filter (fun i => isFinalStore i || isRetInstr i) = finalBlock m := by
  rw [List.filter_eq_self]
  intro a ha
  simp [mem_finalBlock ha]

lemma flatMap_ret_blocks (m : OutputMap) (F : List Instr)
    (hs : ∀ i ∈ F, isFinalStore i = false) :
    (F.flatMap (transStep m)).filter (fun i => isFinalStore i || isRetInstr i) =
      (List.replicate (F.countP isRetInstr) (finalBlock m ++ [Instr.ret])).flatten := by
  induction F with
  | nil => rfl
  | cons i F ih =>
    rw [List.flatMap_cons, List.filter_append,
      ih fun j hj => hs j (List.mem_cons_of_mem i hj), List.countP_cons]
    by_cases hw : isOutputWriteInstr i = true
    · have hr : isRetInstr i = false := by
        cases i <;> simp_all [isOutputWriteInstr, isRetInstr]
      simp [transStep, hw, hr, redirectWrite, isFinalStore]
      rfl
    · by_cases hr : isRetInstr i = true
      · have he : i = Instr.ret := isRet_eq_true hr
        subst he
        rw [show transStep m Instr.ret = finalBlock m ++ [Instr.ret] from rfl,
          List.filter_append, filter_retFinal_finalBlock]
        rw [show List.filter (fun i => isFinalStore i || isRetInstr i) [Instr.ret] =
          [Instr.ret] from rfl]
        rw [show (List.countP isRetInstr F +
            if isRetInstr Instr.ret = true then 1 else 0) =
          List.countP isRetInstr F + 1 from by simp [isRetInstr]]
        rw [List.replicate_succ, List.flatten_cons, List.append_assoc]
      · have h0 : transStep m i = [i] := by simp [transStep, hw, hr]
        have h1 : isFinalStore i = false := hs i (List.mem_cons_self i F)
        simp [h0, h1, hr]

lemma flatMap_const_rep {α β : Type} (L : List α) (c : Nat) (v : β) :
    L.flatMap (fun _ => List.replicate c v) = List.replicate (L.length * c) v := by
  induction L with
  | nil => simp
  | cons a L ih =>
    rw [List.flatMap_cons, ih, ← List.replicate_add]
    congr 1
    rw [show (a :: L).length = L.length + 1 from rfl]
    ring

lemma storeOutputAll_sigIds (o : OutputElement) (slot : Nat) :
    (o.storeOutputAll slot).filterMap finalStoreSigId =
      List.replicate (o.rows * o.cols) (o.sigElem.id % 2 ^ 32) := by
  rw [OutputElement.storeOutputAll, filterMap_flatMap_my]
  have h : ∀ r ∈ List.range o.rows,
      ((List.range o.cols).map fun c => o.storeOutputAt slot r c).filterMap
        finalStoreSigId = List.replicate o.cols (o.sigElem.id % 2 ^ 32) := by
    intro r _
    have h1 : List.filterMap (finalStoreSigId ∘ fun c => o.storeOutputAt slot r c)
        (List.range o.cols) =
        (List.range o.cols).map fun _ => o.sigElem.id % 2 ^ 32 :=
      filterMap_eq_map_of fun c _ => rfl
    rw [List.filterMap_map, h1, List.map_const', List.length_range]
  rw [flatMap_congr_mem h, flatMap_const_rep, List.length_range]

lemma finalBlock_sigIds (m : OutputMap) (hid : ∀ p ∈ m, p.2.sigElem.id = p.1) :
    (finalBlock m).filterMap finalStoreSigId =
      m.flatMap fun p => List.replicate (p.2.rows * p.2.cols) (p.1 % 2 ^ 32) := by
  rw [finalBlock, filterMap_flatMap_my]
  apply flatMap_congr_mem
  intro p hp
  rw [storeOutputAll_sigIds, hid p hp]

lemma pairwise_le_flatRep (m : OutputMap)
    (hpw : (mapKeys m).Pairwise (· < ·)) (hsm : ∀ p ∈ m, p.1 < 2 ^ 32) :
    (m.flatMap fun p => List.replicate (p.2.rows * p.2.cols) (p.1 % 2 ^ 32)).Pairwise
      (· ≤ ·) := by
  induction m with
  | nil => simp
  | cons q m ih =>
    rw [List.flatMap_cons, List.pairwise_append]
    obtain ⟨hq, hm⟩ := List.pairwise_cons.mp
      (show (q.1 :: mapKeys m).Pairwise (· < ·) from hpw)
    refine ⟨List.pairwise_replicate.mpr (Or.inr (le_refl _)),
      ih hm (fun p hp => hsm p (List.mem_cons_of_mem q hp)), ?_⟩
    intro a ha b hb
    rw [List.mem_replicate] at ha
    rw [List.mem_flatMap] at hb
    obtain ⟨p, hpm, hbp⟩ := hb
    rw [List.mem_replicate] at hbp
    have h1 : q.1 < 2 ^ 32 := hsm q (List.mem_cons_self q m)
    have h2 : p.1 < 2 ^ 32 := hsm p (List.mem_cons_of_mem q hpm)
    have h3 : q.1 < p.1 := hq p.1 (List.mem_map.mpr ⟨p, hpm, rfl⟩)
    rw [ha.2, hbp.2]
    omega

lemma createGEP_i32 (o : OutputElement) (slot r c : Nat) (hr : r < o.rows)
    (hc : c < o.cols) (hb : o.rows * o.cols < 2 ^ 32) :
    o.createGEP slot (i32 r) (i32 c) =
      some (Addr.gep slot ⟨32, r * o.cols + c⟩) := by
  have h2 : o.cols ≤ o.rows * o.cols := by
    calc o.cols = 1 * o.cols := (one_mul _).symm
    _ ≤ o.rows * o.cols := Nat.mul_le_mul_right _ (by omega)
  have h4 : o.rows ≤ o.rows * o.cols := by
    calc o.rows = o.rows * 1 := (Nat.mul_one _).symm
    _ ≤ o.rows * o.cols := Nat.mul_le_mul_left _ (by omega)
  have h3 : r * o.cols + o.cols ≤ o.rows * o.cols := by
    have h5 : (r + 1) * o.cols ≤ o.rows * o.cols :=
      Nat.mul_le_mul_right _ (by omega)
    calc r * o.cols + o.cols = (r + 1) * o.cols := by ring
    _ ≤ o.rows * o.cols := h5
  have hrm : r % 2 ^ 32 = r := Nat.mod_eq_of_lt (by omega)
  have hcm : c % 2 ^ 32 = c := Nat.mod_eq_of_lt (by omega)
  have hcols : o.cols % 2 ^ 32 = o.cols := Nat.mod_eq_of_lt (by omega)
  have hprod : r * o.cols % 2 ^ 32 = r * o.cols := Nat.mod_eq_of_lt (by omega)
  have hsum : (r * o.cols + c) % 2 ^ 32 = r * o.cols + c :=
    Nat.mod_eq_of_lt (by omega)
  simp [OutputElement.createGEP, i32, mulIV, addIV, getAsI32, zextIV, truncIV,
    hrm, hcm, hcols, hprod, hsum]
  omega

lemma trans_full (m : OutputMap) (F : List Instr) :
    removeOriginalOutputStores (insertFinalOutputStores m
      (insertTempOutputStores (createTempAllocas m ++ F))) =
      createTempAllocas m ++ F.flatMap (transStep m) := by
  rw [insertTemp_append, insertTemp_allocas, insertFinal_append, insertFinal_allocas,
    removeOrig_append, removeOrig_allocas, trans_fusion]

lemma no_allocas_trans (m : OutputMap) (F : List Instr)
    (hs : ∀ i ∈ F, isAllocaInstr i = false) :
    ∀ i ∈ F.flatMap (transStep m), isAllocaInstr i = false := by
  intro i hi
  rw [List.mem_flatMap] at hi
  obtain ⟨j, hj, hji⟩ := hi
  by_cases hw : isOutputWriteInstr j = true
  · rw [transStep, if_pos hw, List.mem_singleton] at hji
    subst hji
    rfl
  · by_cases hr : isRetInstr j = true
    · rw [transStep, if_neg hw, if_pos hr] at hji
      rcases List.mem_append.mp hji with h1 | h1
      · have h2 := mem_finalBlock h1
        cases i <;> simp_all [isFinalStore, isAllocaInstr]
      · rw [List.mem_singleton] at h1
        subst h1
        rw [isRet_eq_true hr]
        rfl
    · rw [transStep, if_neg hw, if_neg hr, List.mem_singleton] at hji
      subst hji
      exact hs i hj

lemma countP_key_sorted {m : OutputMap} {k : Nat}
    (hpw : (mapKeys m).Pairwise (· < ·)) :
    m.countP (fun p => p.1 == k) = if mapContains m k = true then 1 else 0 := by
  induction m with
  | nil => simp [mapContains]
  | cons q m ih =>
    obtain ⟨hq, hm⟩ := List.pairwise_cons.mp
      (show (q.1 :: mapKeys m).Pairwise (· < ·) from hpw)
    rw [List.countP_cons, ih hm]
    by_cases h : q.1 = k
    · have hc : mapContains m k = false := by
        cases hx : mapContains m k
        · rfl
        · exfalso
          have h2 := hq k (contains_iff_memKeys.mp hx)
          omega
      have hcc : mapContains (q :: m) k = true := by
        rw [contains_cons]
        simp [h]
      simp [hc, hcc, h]
    · have hbe : (q.1 == k) = false := by simp [h]
      rw [contains_cons]
      simp [hbe]

lemma storeOutputAll_op (o : OutputElement) (slot : Nat) :
    ∀ i ∈ o.storeOutputAll slot, finalStoreOp i = some o.getOutputOpCode := by
  intro i hi
  simp only [OutputElement.storeOutputAll, List.mem_flatMap, List.mem_map] at hi
  obtain ⟨r, -, c, -, rfl⟩ := hi
  rfl

lemma mem_of_getElemQ {tbl : List SigElement} {i : Nat} {e : SigElement}
    (h : tbl[i]? = some e) : e ∈ tbl := by
  obtain ⟨hlt, he⟩ := List.getElem?_eq_some.mp h
  rw [← he]
  exact List.getElem_mem hlt

lemma result_decomp {DM : DxilModule} {F F' : List Instr} {m : OutputMap}
    (hne : (collectOutputStores F).isEmpty = false)
    (hm : generateOutputMap DM (collectOutputStores F) [] = some m)
    (hrun : runOnFunction DM F = some (F', false)) :
    F' = createTempAllocas m ++ F.flatMap (transStep m) := by
  have h0 := runOnFunction_eq DM F m hne hm
  rw [hrun] at h0
  injection h0 with h0
  exact congrArg Prod.fst h0

lemma source_no_finalStore {F : List Instr} (hsrc : isSourceFn F = true) :
    ∀ i ∈ F, isFinalStore i = false := by
  intro i hi
  have h := (List.all_eq_true.mp hsrc) i hi
  cases i <;> simp_all [isFinalStore, isSynthInstr]

lemma source_no_storeTemp {F : List Instr} (hsrc : isSourceFn F = true) :
    ∀ i ∈ F, isStoreTemp i = false := by
  intro i hi
  have h := (List.all_eq_true.mp hsrc) i hi
  cases i <;> simp_all [isStoreTemp, isSynthInstr]

lemma source_no_alloca {F : List Instr} (hsrc : isSourceFn F = true) :
    ∀ i ∈ F, isAllocaInstr i = false := by
  intro i hi
  have h := (List.all_eq_true.mp hsrc) i hi
  cases i <;> simp_all [isAllocaInstr, isSynthInstr]

lemma countP_final_allocas (m : OutputMap) :
    (createTempAllocas m).countP isFinalStore = 0 := by
  rw [List.countP_eq_zero]
  intro a ha
  rw [createTempAllocas, List.mem_map] at ha
  obtain ⟨p, -, rfl⟩ := ha
  simp [OutputElement.createAlloca, isFinalStore]

lemma countP_storeTemp_allocas (m : OutputMap) :
    (createTempAllocas m).countP isStoreTemp = 0 := by
  rw [List.countP_eq_zero]
  intro a ha
  rw [createTempAllocas, List.mem_map] at ha
  obtain ⟨p, -, rfl⟩ := ha
  simp [OutputElement.createAlloca, isStoreTemp]

/-- C1: for a function with N exit points and a registry of total
coordinate count C, the transformed function contains exactly N * C
synthesized final output writes; the writes-and-returns subsequence is N
repetitions of the full final block followed by its return; the final
block sits immediately before every return; and for every registered
output the emitted coordinates are exactly the row-major enumeration of
[0, rows) x [0, cols), none missing, none duplicated, every write
sourcing its value from that output's own scratch slot. -/
theorem claim1_final_writes (DM : DxilModule) (F : List Instr) (m : OutputMap)
    (F' : List Instr)
    (hne : (collectOutputStores F).isEmpty = false)
    (hm : generateOutputMap DM (collectOutputStores F) [] = some m)
    (hrun : runOnFunction DM F = some (F', false))
    (hsrc : isSourceFn F = true)
    (hbound : ∀ p ∈ m, p.2.rows ≤ 2 ^ 32 ∧ p.2.cols ≤ 2 ^ 8) :
    F'.countP isFinalStore = F.countP isRetInstr * totalCoords m
    ∧ F'.filter (fun i => isFinalStore i || isRetInstr i) =
        (List.replicate (F.countP isRetInstr) (finalBlock m ++ [Instr.ret])).flatten
    ∧ (∀ pre post, F' = pre ++ Instr.ret :: post → finalBlock m <:+ pre)
    ∧ (∀ p ∈ m,
        (p.2.storeOutputAll p.1).filterMap coordOf =
          rowMajorCoords p.2.rows p.2.cols
        ∧ (rowMajorCoords p.2.rows p.2.cols).Nodup
        ∧ (∀ r c, (r, c) ∈ rowMajorCoords p.2.rows p.2.cols ↔
            r < p.2.rows ∧ c < p.2.cols)
        ∧ (finalBlock m).filter (fun i => finalStoreSlot i == some p.1) =
            p.2.storeOutputAll p.1
        ∧ ∀ i ∈ p.2.storeOutputAll p.1, finalStoreSlot i = some p.1) := by
  have hF' := result_decomp hne hm hrun
  subst hF'
  have hsF := source_no_finalStore hsrc
  refine ⟨?_, ?_, ?_, ?_⟩
  · rw [List.countP_append, countP_final_allocas,
      countP_finalStore_trans m F hsF, Nat.zero_add]
  · rw [List.filter_append]
    have hAf : (createTempAllocas m).filter
        (fun i => isFinalStore i || isRetInstr i) = [] := by
      rw [List.filter_eq_nil_iff]
      intro a ha
      rw [createTempAllocas, List.mem_map] at ha
      obtain ⟨p, -, rfl⟩ := ha
      simp [OutputElement.createAlloca, isFinalStore, isRetInstr]
    rw [hAf, List.nil_append, flatMap_ret_blocks m F hsF]
  · intro pre post h
    exact trans_ret_suffix m F pre post h
  · intro p hp
    have hb := hbound p hp
    have hsorted : (mapKeys m).Pairwise (· < ·) :=
      gom_sorted hm (by simp [mapKeys])
    exact ⟨filterMap_coord_storeOutputAll p.2 p.1 hb.1 hb.2,
      nodup_rowMajorCoords _ _,
      fun r c => mem_rowMajorCoords,
      finalBlock_filter_slot m (hsorted.imp fun h => Nat.ne_of_lt h) p hp,
      fun i hi => finalStoreSlot_mem_storeOutputAll hi⟩

/-- Witness for C1 at a concrete module and function. -/
theorem claim1_final_writes_witness :
    bugFtr.countP isFinalStore =
      bugF.countP isRetInstr * totalCoords [(0, mkOutputElement wOut)] :=
  (claim1_final_writes bugDM bugF [(0, mkOutputElement wOut)] bugFtr
    (by decide) (by decide) (by decide) (by decide) (by decide)).1

/-- C2: the pass reports no change even when it rewrote the function: on
a function with one output write, runOnFunction rewrites the body (adds
the alloca, the redirected store and the final write, and deletes the
original write) yet returns false, where the claim requires true for a
modified function. -/
theorem claim2_returns_false :
    runOnFunction bugDM bugF = some (bugFtr, false) ∧ bugFtr ≠ bugF := by
  constructor
  · decide
  · decide

/-- C3 counterexample: with a 64-bit row index the address computation is
not the one obtained after normalizing the row to 32 bits, because
CreateGEP normalizes only the column: the row is multiplied at its own
width and the final add is left with mismatched widths. -/
theorem claim3_not_both_normalized :
    cexElem.createGEP 0 row64 col32 ≠
      cexElem.createGEP 0 (getAsI32 row64) (getAsI32 col32) := by
  decide

/-- C3 amended: only the column index value is normalized to the 32-bit
index width, by truncation when wider and zero-extension (value preserved
modulo 2^32, never sign-extended) when narrower; the row index is used at
its original width. -/
theorem claim3_column_normalized (o : OutputElement) (slot : Nat)
    (row col : IntV) (hcol : col.val < 2 ^ col.width) :
    o.createGEP slot row col = o.createGEP slot row (getAsI32 col)
    ∧ (getAsI32 col).width = 32
    ∧ (getAsI32 col).val = col.val % 2 ^ 32 := by
  have hw : (getAsI32 col).width = 32 := by
    rw [getAsI32]
    by_cases h : col.width = 32
    · rw [if_pos h]
      exact h
    · rw [if_neg h]
      by_cases h2 : 32 < col.width
      · rw [if_pos h2]
        rfl
      · rw [if_neg h2]
        rfl
  have hidem : getAsI32 (getAsI32 col) = getAsI32 col := by
    rw [getAsI32, if_pos hw]
  refine ⟨by simp only [OutputElement.createGEP, hidem], hw, ?_⟩
  rw [getAsI32]
  by_cases h : col.width = 32
  · rw [if_pos h]
    exact (Nat.mod_eq_of_lt (h ▸ hcol)).symm
  · rw [if_neg h]
    by_cases h2 : 32 < col.width
    · rw [if_pos h2]
      rfl
    · rw [if_neg h2]
      exact (Nat.mod_eq_of_lt (lt_of_lt_of_le hcol
        (Nat.pow_le_pow_right (by omega) (by omega)))).symm

/-- Witness for the amended C3 at a concrete 8-bit column. -/
theorem claim3_column_normalized_witness :
    cexElem.createGEP 0 (i32 1) (i8 7) =
      cexElem.createGEP 0 (i32 1) (getAsI32 (i8 7))
    ∧ (getAsI32 (i8 7)).width = 32
    ∧ (getAsI32 (i8 7)).val = (i8 7).val % 2 ^ 32 :=
  claim3_column_normalized cexElem 0 (i32 1) (i8 7) (by decide)

/-- C4: every registered output gets exactly one scratch slot, allocated
at the start of the function (the transformed body begins with one alloca
per registry entry and contains no other allocas); a 1x1 output gets a
single scalar slot addressed directly with no index arithmetic, any other
shape gets an array slot of rows * cols elements addressed at the linear
index row * cols + col. -/
theorem claim4_scratch_slots (o : OutputElement) (DM : DxilModule)
    (F : List Instr) (m : OutputMap) (F' : List Instr)
    (hne : (collectOutputStores F).isEmpty = false)
    (hm : generateOutputMap DM (collectOutputStores F) [] = some m)
    (hrun : runOnFunction DM F = some (F', false))
    (hsrc : isSourceFn F = true) :
    (o.rows = 1 ∧ o.cols = 1 →
      o.allocaType = AllocaType.scalar o.sigElem.compType
      ∧ ∀ slot row col, o.getTempAddr slot row col = some (Addr.direct slot))
    ∧ (¬(o.rows = 1 ∧ o.cols = 1) →
      o.allocaType = AllocaType.array o.sigElem.compType (o.rows * o.cols)
      ∧ ∀ slot r c, r < o.rows → c < o.cols → o.rows * o.cols < 2 ^ 32 →
        o.getTempAddr slot (i32 r) (i32 c) =
          some (Addr.gep slot ⟨32, r * o.cols + c⟩))
    ∧ (∃ rest, F' = (m.map fun p => Instr.alloca p.1 p.2.allocaType) ++ rest
        ∧ ∀ i ∈ rest, isAllocaInstr i = false) := by
  refine ⟨?_, ?_, ?_⟩
  · intro h
    have hs : o.isSingleElement = true := by
      simp [OutputElement.isSingleElement, h.1, h.2]
    exact ⟨by rw [OutputElement.allocaType, if_pos hs],
      fun slot row col => by rw [OutputElement.getTempAddr, if_pos hs]⟩
  · intro h
    have hs : o.isSingleElement = false := by
      cases hx : o.isSingleElement
      · rfl
      · exfalso
        apply h
        simpa [OutputElement.isSingleElement] using hx
    constructor
    · rw [OutputElement.allocaType, if_neg (by simp [hs])]
      rfl
    · intro slot r c hr hc hb
      rw [OutputElement.getTempAddr, if_neg (by simp [hs])]
      exact createGEP_i32 o slot r c hr hc hb
  · have hF' := result_decomp hne hm hrun
    refine ⟨F.flatMap (transStep m), ?_, ?_⟩
    · rw [hF']
      have hmap : createTempAllocas m =
          m.map fun p => Instr.alloca p.1 p.2.allocaType :=
        List.map_congr_left fun p _ => rfl
      rw [hmap]
    · exact no_allocas_trans m F (source_no_alloca hsrc)

/-- Witness for C4 at a concrete output element, module and function. -/
theorem claim4_scratch_slots_witness :
    ((mkOutputElement wOut).rows = 1 ∧ (mkOutputElement wOut).cols = 1 →
      (mkOutputElement wOut).allocaType =
        AllocaType.scalar (mkOutputElement wOut).sigElem.compType
      ∧ ∀ slot row col, (mkOutputElement wOut).getTempAddr slot row col =
          some (Addr.direct slot))
    ∧ (¬((mkOutputElement wOut).rows = 1 ∧ (mkOutputElement wOut).cols = 1) →
      (mkOutputElement wOut).allocaType =
        AllocaType.array (mkOutputElement wOut).sigElem.compType
          ((mkOutputElement wOut).rows * (mkOutputElement wOut).cols)
      ∧ ∀ slot r c, r < (mkOutputElement wOut).rows →
          c < (mkOutputElement wOut).cols →
          (mkOutputElement wOut).rows * (mkOutputElement wOut).cols < 2 ^ 32 →
          (mkOutputElement wOut).getTempAddr slot (i32 r) (i32 c) =
            some (Addr.gep slot ⟨32, r * (mkOutputElement wOut).cols + c⟩))
    ∧ (∃ rest, bugFtr =
        ([(0, mkOutputElement wOut)].map fun p => Instr.alloca p.1 p.2.allocaType)
          ++ rest
        ∧ ∀ i ∈ rest, isAllocaInstr i = false) :=
  claim4_scratch_slots (mkOutputElement wOut) bugDM bugF
    [(0, mkOutputElement wOut)] bugFtr (by decide) (by decide) (by decide)
    (by decide)

/-- C5: a function containing no write to a regular or patch-constant
output is left untouched and the pass reports no change. -/
theorem claim5_no_writes_no_change (DM : DxilModule) (F : List Instr)
    (h : ∀ i ∈ F, isOutputWriteInstr i = false) :
    runOnFunction DM F = some (F, false) := by
  have hc : collectOutputStores F = [] := by
    rw [collectOutputStores, List.filter_eq_nil_iff]
    intro a ha
    simp [h a ha]
  simp [runOnFunction, hc]

/-- Witness for C5 on a function with no output writes. -/
theorem claim5_no_writes_no_change_witness :
    runOnFunction bugDM [Instr.other 0, Instr.ret] =
      some ([Instr.other 0, Instr.ret], false) :=
  claim5_no_writes_no_change bugDM [Instr.other 0, Instr.ret] (by decide)

/-- C6: the registry maps exactly the identifiers that occur among the
collected writes, each to exactly one entry (keys strictly sorted, hence
no duplicates); the descriptor registered for an identifier is resolved
from the first collected write with that identifier; and exactly one
scratch alloca is created per registered identifier and none for any
other identifier. -/
theorem claim6_registry_bijection (DM : DxilModule) (calls : List Instr)
    (m : OutputMap) (hm : generateOutputMap DM calls [] = some m) :
    (mapKeys m).Pairwise (· < ·)
    ∧ (∀ sid, (mapLookup m sid).isSome = true ↔ sid ∈ calls.map writeSigId)
    ∧ (∀ sid w, calls.find? (fun x => writeSigId x == sid) = some w →
        mapLookup m sid = (elemForWrite DM w).map mkOutputElement)
    ∧ (∀ k, (createTempAllocas m).countP (fun i => allocaSlot i == some k) =
        if (mapLookup m k).isSome = true then 1 else 0) := by
  have hsorted := gom_sorted hm (by simp [mapKeys])
  refine ⟨hsorted, ?_, ?_, ?_⟩
  · intro sid
    rw [← contains_iff_lookup, gom_contains hm sid]
    simp [mapContains]
  · intro sid w hf
    exact gom_first hm rfl hf
  · intro k
    rw [createTempAllocas, List.countP_map]
    have hcomp : ((fun i => allocaSlot i == some k) ∘
        fun p : Nat × OutputElement => p.2.createAlloca p.1) =
        fun p : Nat × OutputElement => p.1 == k := by
      funext p
      simp [Function.comp, allocaSlot, OutputElement.createAlloca]
    rw [hcomp, countP_key_sorted hsorted]
    by_cases h : mapContains m k = true
    · rw [if_pos h, if_pos (contains_iff_lookup.mp h)]
    · rw [if_neg h]
      have h2 : ¬ (mapLookup m k).isSome = true := fun hx =>
        h (contains_iff_lookup.mpr hx)
      rw [if_neg h2]

/-- Witness for C6 at a concrete collected-write list. -/
theorem claim6_registry_bijection_witness :
    (mapKeys [(0, mkOutputElement wPC), (1, mkOutputElement wOut1)]).Pairwise
      (· < ·) :=
  (claim6_registry_bijection wDM (collectOutputStores wF)
    [(0, mkOutputElement wPC), (1, mkOutputElement wOut1)] (by decide)).1

/-- C7: a patch-constant write resolves its descriptor in the
patch-constant table and, in a module whose tables carry the correct
category flags, its materialized writes use the patch-constant store
primitive selected with the descriptor's component type; a regular output
write resolves in the regular output table and its materialized writes
use the regular store primitive. -/
theorem claim7_category_dispatch (DM : DxilModule)
    (hwf : wfCategories DM = true) :
    ∀ sid r c v e,
      (elemForWrite DM (Instr.storePatchConstant sid r c v) = some e →
        DM.patchConstantSignature[sid]? = some e
        ∧ (mkOutputElement e).getOutputOpCode = OpCode.storePatchConstant
        ∧ (mkOutputElement e).getOutputFunction =
            (OpCode.storePatchConstant, e.compType)
        ∧ ∀ slot i, i ∈ (mkOutputElement e).storeOutputAll slot →
            finalStoreOp i = some OpCode.storePatchConstant)
      ∧ (elemForWrite DM (Instr.storeOutput sid r c v) = some e →
        DM.outputSignature[sid]? = some e
        ∧ (mkOutputElement e).getOutputOpCode = OpCode.storeOutput
        ∧ (mkOutputElement e).getOutputFunction = (OpCode.storeOutput, e.compType)
        ∧ ∀ slot i, i ∈ (mkOutputElement e).storeOutputAll slot →
            finalStoreOp i = some OpCode.storeOutput) := by
  rw [wfCategories, Bool.and_eq_true] at hwf
  intro sid r c v e
  constructor
  · intro he
    have he2 : DM.patchConstantSignature[sid]? = some e := by
      rw [elemForWrite] at he
      simpa [writeIsPatch, writeSigId] using he
    have hp : e.isPatchConstant = true :=
      (List.all_eq_true.mp hwf.2) e (mem_of_getElemQ he2)
    have hop : (mkOutputElement e).getOutputOpCode = OpCode.storePatchConstant := by
      simp [OutputElement.getOutputOpCode, mkOutputElement, hp]
    refine ⟨he2, hop, ?_, ?_⟩
    · rw [OutputElement.getOutputFunction, hop]
      rfl
    · intro slot i hi
      rw [storeOutputAll_op _ _ i hi, hop]
  · intro he
    have he2 : DM.outputSignature[sid]? = some e := by
      rw [elemForWrite] at he
      simpa [writeIsPatch, writeSigId] using he
    have hp : e.isPatchConstant = false := by
      have := (List.all_eq_true.mp hwf.1) e (mem_of_getElemQ he2)
      simpa using this
    have hop : (mkOutputElement e).getOutputOpCode = OpCode.storeOutput := by
      simp [OutputElement.getOutputOpCode, mkOutputElement, hp]
    refine ⟨he2, hop, ?_, ?_⟩
    · rw [OutputElement.getOutputFunction, hop]
      rfl
    · intro slot i hi
      rw [storeOutputAll_op _ _ i hi, hop]

/-- Witness for C7 at the concrete module's patch-constant element. -/
theorem claim7_category_dispatch_witness :
    wDM.patchConstantSignature[0]? = some wPC
    ∧ (mkOutputElement wPC).getOutputOpCode = OpCode.storePatchConstant
    ∧ (mkOutputElement wPC).getOutputFunction =
        (OpCode.storePatchConstant, wPC.compType)
    ∧ ∀ slot i, i ∈ (mkOutputElement wPC).storeOutputAll slot →
        finalStoreOp i = some OpCode.storePatchConstant :=
  (claim7_category_dispatch wDM (by decide) 0 (i32 0) (i8 0) 8 wPC).1 (by decide)

/-- C8: redirection is an in-place substitution: projecting away the
pass's synthesized allocas and final writes, and identifying each
original write with the redirected scratch store built from its operands,
the transformed function body is exactly the original one, so the
relative order of redirected writes to each other and to all unrelated
instructions is the original program order. -/
theorem claim8_order_preserved (DM : DxilModule) (F : List Instr)
    (m : OutputMap) (F' : List Instr)
    (hne : (collectOutputStores F).isEmpty = false)
    (hm : generateOutputMap DM (collectOutputStores F) [] = some m)
    (hrun : runOnFunction DM F = some (F', false)) :
    F'.filterMap skeletonTok = F.filterMap skeletonTok := by
  have hF' := result_decomp hne hm hrun
  subst hF'
  rw [List.filterMap_append, skeleton_allocas, List.nil_append, skeleton_trans]

/-- Witness for C8 at a concrete module and function. -/
theorem claim8_order_preserved_witness :
    bugFtr.filterMap skeletonTok = bugF.filterMap skeletonTok :=
  claim8_order_preserved bugDM bugF [(0, mkOutputElement wOut)] bugFtr
    (by decide) (by decide) (by decide)

/-- C9: erasure of the original writes is the last phase, running over
the function only after redirection and exit materialization: the result
is exactly removeOriginalOutputStores applied to the fully redirected and
materialized body, it contains no original-form output write, and every
collected write's redirected scratch store survives in it. -/
theorem claim9_erasure_last (DM : DxilModule) (F : List Instr)
    (m : OutputMap) (F' : List Instr)
    (hne : (collectOutputStores F).isEmpty = false)
    (hm : generateOutputMap DM (collectOutputStores F) [] = some m)
    (hrun : runOnFunction DM F = some (F', false))
    (hsrc : isSourceFn F = true) :
    F' = removeOriginalOutputStores (insertFinalOutputStores m
        (insertTempOutputStores (createTempAllocas m ++ F)))
    ∧ (∀ i ∈ F', isOutputWriteInstr i = false)
    ∧ F'.countP isStoreTemp = (collectOutputStores F).length := by
  have hF' := result_decomp hne hm hrun
  subst hF'
  refine ⟨(trans_full m F).symm, no_writes_result m F, ?_⟩
  rw [List.countP_append, countP_storeTemp_allocas,
    countP_storeTemp_trans m F (source_no_storeTemp hsrc), Nat.zero_add]

/-- Witness for C9 at a concrete module and function. -/
theorem claim9_erasure_last_witness :
    bugFtr.countP isStoreTemp = (collectOutputStores bugF).length :=
  (claim9_erasure_last bugDM bugF [(0, mkOutputElement wOut)] bugFtr
    (by decide) (by decide) (by decide) (by decide)).2.2

/-- C10: the registry iterates in strictly ascending key order, so at
every exit the final writes for distinct outputs are emitted in ascending
signature-id order; the key sequence depends only on the set of
identifiers among the collected writes, not on their order; and (for an
id-consistent module with ids below 2^32) the signature-id operands of
the emitted block form a monotone non-decreasing sequence. -/
theorem claim10_ascending_emission (DM : DxilModule) (calls calls' : List Instr)
    (m m' : OutputMap)
    (hm : generateOutputMap DM calls [] = some m)
    (hm' : generateOutputMap DM calls' [] = some m')
    (hsame : ∀ sid, sid ∈ calls.map writeSigId ↔ sid ∈ calls'.map writeSigId)
    (hid : idConsistent DM = true)
    (hsm : ∀ p ∈ m, p.1 < 2 ^ 32) :
    (mapKeys m).Pairwise (· < ·)
    ∧ mapKeys m = mapKeys m'
    ∧ (∀ p ∈ m, p.2.sigElem.id = p.1)
    ∧ (finalBlock m).filterMap finalStoreSigId =
        (m.flatMap fun p => List.replicate (p.2.rows * p.2.cols) (p.1 % 2 ^ 32))
    ∧ ((finalBlock m).filterMap finalStoreSigId).Pairwise (· ≤ ·) := by
  have hs1 := gom_sorted hm (by simp [mapKeys])
  have hs2 := gom_sorted hm' (by simp [mapKeys])
  have hidm := gom_id_consistent hid hm (by intro p hp; cases hp)
  have hkeys : mapKeys m = mapKeys m' := by
    apply pairwise_lt_ext _ _ hs1 hs2
    intro x
    rw [← contains_iff_memKeys, ← contains_iff_memKeys, gom_contains hm x,
      gom_contains hm' x]
    simp only [show mapContains [] x = false from rfl, Bool.false_eq_true,
      false_or]
    exact hsame x
  have hemit := finalBlock_sigIds m hidm
  refine ⟨hs1, hkeys, hidm, hemit, ?_⟩
  rw [hemit]
  exact pairwise_le_flatRep m hs1 hsm

/-- Witness for C10: two write lists over the same identifier set in
different orders produce registries with the same keys. -/
theorem claim10_ascending_emission_witness :
    mapKeys [(0, mkOutputElement wPC), (1, mkOutputElement wOut1)] =
      mapKeys [(0, mkOutputElement wOut), (1, mkOutputElement wOut1)] :=
  (claim10_ascending_emission wDM
    [Instr.storePatchConstant 0 (i32 0) (i8 0) 8,
     Instr.storeOutput 1 (i32 1) (i8 0) 7]
    [Instr.storeOutput 0 (i32 0) (i8 0) 9,
     Instr.storeOutput 1 (i32 1) (i8 0) 7]
    [(0, mkOutputElement wPC), (1, mkOutputElement wOut1)]
    [(0, mkOutputElement wOut), (1, mkOutputElement wOut1)]
    (by decide) (by decide)
    (by intro sid; simp [writeSigId])
    (by decide) (by decide)).2.1
